import Mathlib

/-!
Verification of the lattice-code, error-model and resampling-analysis layers
of the panqec/bn3d repository, as a shallow embedding in Lean 4.

Conventions of the embedding:
* Python `range(start, stop, step)` (positive step) is `pyRange start stop step`.
* Nested `for` loops appending tuples become `tripleProduct` of the ranges.
* Machine floats are modelled exactly: rationals for the error-model layer,
  reals for the statistics layer.  NaN results of pandas/numpy reductions are
  modelled as `Option` values (`none` = NaN/missing).
* Python exceptions become `Except String`.
-/

namespace PanQec

/-- Python `range(start, stop, step)` for a positive step: the arithmetic
progression starting at `start` with `⌈(stop - start)/step⌉` terms. -/
def pyRange (start stop step : ℕ) : List ℕ :=
  List.range' start ((stop - start + (step - 1)) / step) step

theorem range'_step_two (L s : ℕ) :
    List.range' s L 2 = (List.range L).map (fun a => s + 2 * a) := by
  induction L generalizing s with
  | zero => simp
  | succ L ih =>
    rw [List.range'_succ, ih, List.range_succ_eq_map]
    simp only [List.map_cons, List.map_map]
    refine congrArg₂ _ (by omega) ?_
    apply List.map_congr_left
    intro a _
    simp [Function.comp]
    omega

/-- `range(1, 2*L, 2)` enumerates the odd numbers `2*a + 1` for `a < L`. -/
theorem pyRange_odd (L : ℕ) :
    pyRange 1 (2 * L) 2 = (List.range L).map (fun a => 2 * a + 1) := by
  unfold pyRange
  have h : (2 * L - 1 + (2 - 1)) / 2 = L := by omega
  rw [h, range'_step_two]
  apply List.map_congr_left
  intro a _
  omega

/-- `range(0, 2*L, 2)` enumerates the even numbers `2*a` for `a < L`. -/
theorem pyRange_even (L : ℕ) :
    pyRange 0 (2 * L) 2 = (List.range L).map (fun a => 2 * a) := by
  unfold pyRange
  have h : (2 * L - 0 + (2 - 1)) / 2 = L := by omega
  rw [h, range'_step_two]
  apply List.map_congr_left
  intro a _
  omega

/-- `range(L)` is `List.range L`. -/
theorem pyRange_simple (L : ℕ) : pyRange 0 L 1 = List.range L := by
  unfold pyRange
  have h : (L - 0 + (1 - 1)) / 1 = L := by omega
  rw [h, List.range_eq_range']

/-- Three nested `for` loops `for x in l1: for y in l2: for z in l3` appending
the tuple `(x, y, z)`, i.e. the lexicographic triple product. -/
def tripleProduct (l1 l2 l3 : List ℕ) : List (ℕ × ℕ × ℕ) :=
  ((l1 ×ˢ l2) ×ˢ l3).map (fun p => (p.1.1, p.1.2, p.2))

theorem mem_tripleProduct {l1 l2 l3 : List ℕ} {p : ℕ × ℕ × ℕ} :
    p ∈ tripleProduct l1 l2 l3 ↔ p.1 ∈ l1 ∧ p.2.1 ∈ l2 ∧ p.2.2 ∈ l3 := by
  obtain ⟨x, y, z⟩ := p
  constructor
  · intro h
    obtain ⟨⟨⟨a, b⟩, c⟩, hm, he⟩ := List.mem_map.mp h
    obtain ⟨hab, hc⟩ := List.mem_product.mp hm
    obtain ⟨ha, hb⟩ := List.mem_product.mp hab
    simp only [Prod.mk.injEq] at he
    obtain ⟨h1, h2, h3⟩ := he
    subst h1; subst h2; subst h3
    exact ⟨ha, hb, hc⟩
  · rintro ⟨h1, h2, h3⟩
    exact List.mem_map.mpr ⟨((x, y), z),
      List.mem_product.mpr ⟨List.mem_product.mpr ⟨h1, h2⟩, h3⟩, rfl⟩

theorem length_tripleProduct (l1 l2 l3 : List ℕ) :
    (tripleProduct l1 l2 l3).length = l1.length * l2.length * l3.length := by
  simp [tripleProduct, List.length_product]

theorem flatten_injective :
    Function.Injective (fun p : (ℕ × ℕ) × ℕ => (p.1.1, p.1.2, p.2)) := by
  rintro ⟨⟨a, b⟩, c⟩ ⟨⟨d, e⟩, f⟩ h
  simp only [Prod.mk.injEq] at h
  obtain ⟨h1, h2, h3⟩ := h
  subst h1; subst h2; subst h3
  rfl

theorem nodup_tripleProduct {l1 l2 l3 : List ℕ}
    (h1 : l1.Nodup) (h2 : l2.Nodup) (h3 : l3.Nodup) :
    (tripleProduct l1 l2 l3).Nodup :=
  ((h1.product h2).product h3).map flatten_injective

theorem length_pyRange_odd (L : ℕ) : (pyRange 1 (2 * L) 2).length = L := by
  rw [pyRange_odd, List.length_map, List.length_range]

theorem length_pyRange_even (L : ℕ) : (pyRange 0 (2 * L) 2).length = L := by
  rw [pyRange_even, List.length_map, List.length_range]

theorem nodup_pyRange_odd (L : ℕ) : (pyRange 1 (2 * L) 2).Nodup := by
  rw [pyRange_odd]
  exact (List.nodup_range L).map (fun a b h => by omega)

theorem nodup_pyRange_even (L : ℕ) : (pyRange 0 (2 * L) 2).Nodup := by
  rw [pyRange_even]
  exact (List.nodup_range L).map (fun a b h => by omega)

theorem mem_pyRange_odd {x L : ℕ} (h : x ∈ pyRange 1 (2 * L) 2) : x % 2 = 1 := by
  rw [pyRange_odd] at h
  obtain ⟨a, _, rfl⟩ := List.mem_map.mp h
  omega

theorem mem_pyRange_even {x L : ℕ} (h : x ∈ pyRange 0 (2 * L) 2) : x % 2 = 0 := by
  rw [pyRange_even] at h
  obtain ⟨a, _, rfl⟩ := List.mem_map.mp h
  omega

/-! ### The 3D toric code (`src/bn3d/models/toric/_toric_code_3d.py`) -/

/-- Axis labels shared by all code families (`X_AXIS = 0`, `Y_AXIS = 1`,
`Z_AXIS = 2`, as in `RhombicCode` and the common base class). -/
def X_AXIS : ℕ := 0

def Y_AXIS : ℕ := 1

def Z_AXIS : ℕ := 2

/-- `ToricCode3D._create_qubit_indices`: the enumerated qubit coordinates,
the qubits along the x edges first, then the y edges, then the z edges.
The coordinate→index map is the dict `{coord: i for i, coord in enumerate(...)}`,
i.e. the position of a coordinate in this list. -/
def toricQubitCoordinates (Lx Ly Lz : ℕ) : List (ℕ × ℕ × ℕ) :=
  tripleProduct (pyRange 1 (2 * Lx) 2) (pyRange 0 (2 * Ly) 2) (pyRange 0 (2 * Lz) 2) ++
    (tripleProduct (pyRange 0 (2 * Lx) 2) (pyRange 1 (2 * Ly) 2) (pyRange 0 (2 * Lz) 2) ++
      tripleProduct (pyRange 0 (2 * Lx) 2) (pyRange 0 (2 * Ly) 2) (pyRange 1 (2 * Lz) 2))

/-- `ToricCode3D.n_k_d`: `(3 * np.product(size), 3, min(size))`. -/
def toric_n_k_d (Lx Ly Lz : ℕ) : ℕ × ℕ × ℕ :=
  (3 * (Lx * Ly * Lz), 3, min Lx (min Ly Lz))

/-- `ToricCode3D.axis`: classify a qubit coordinate by component parities;
a coordinate matching no pattern raises `ValueError`. -/
def toricAxis (loc : ℕ × ℕ × ℕ) : Except String ℕ :=
  let x := loc.1
  let y := loc.2.1
  let z := loc.2.2
  if z % 2 = 0 ∧ x % 2 = 1 ∧ y % 2 = 0 then Except.ok X_AXIS
  else if z % 2 = 0 ∧ x % 2 = 0 ∧ y % 2 = 1 then Except.ok Y_AXIS
  else if z % 2 = 1 ∧ x % 2 = 0 ∧ y % 2 = 0 then Except.ok Z_AXIS
  else Except.error "Location does not correspond to a qubit"

theorem toricQubitCoordinates_nodup (Lx Ly Lz : ℕ) :
    (toricQubitCoordinates Lx Ly Lz).Nodup := by
  unfold toricQubitCoordinates
  have n1 := nodup_tripleProduct (nodup_pyRange_odd Lx) (nodup_pyRange_even Ly)
    (nodup_pyRange_even Lz)
  have n2 := nodup_tripleProduct (nodup_pyRange_even Lx) (nodup_pyRange_odd Ly)
    (nodup_pyRange_even Lz)
  have n3 := nodup_tripleProduct (nodup_pyRange_even Lx) (nodup_pyRange_even Ly)
    (nodup_pyRange_odd Lz)
  have d23 : (tripleProduct (pyRange 0 (2 * Lx) 2) (pyRange 1 (2 * Ly) 2)
      (pyRange 0 (2 * Lz) 2)).Disjoint
      (tripleProduct (pyRange 0 (2 * Lx) 2) (pyRange 0 (2 * Ly) 2)
        (pyRange 1 (2 * Lz) 2)) := by
    intro p hp hq
    have h1 := (mem_tripleProduct.mp hp).2.1
    have h2 := (mem_tripleProduct.mp hq).2.1
    have := mem_pyRange_odd h1
    have := mem_pyRange_even h2
    omega
  refine n1.append (n2.append n3 d23) ?_
  intro p hp hq
  have hodd := mem_pyRange_odd (mem_tripleProduct.mp hp).1
  rcases List.mem_append.mp hq with hq | hq
  · have := mem_pyRange_even (mem_tripleProduct.mp hq).1
    omega
  · have := mem_pyRange_even (mem_tripleProduct.mp hq).1
    omega

theorem toricQubitCoordinates_length (Lx Ly Lz : ℕ) :
    (toricQubitCoordinates Lx Ly Lz).length = 3 * (Lx * Ly * Lz) := by
  unfold toricQubitCoordinates
  simp only [List.length_append, length_tripleProduct, length_pyRange_odd,
    length_pyRange_even]
  ring

/-- The coordinate→index map of an enumeration list (`{coord: i for i, coord
in enumerate(coordinates)}`): a coordinate is assigned exactly one index (no
collisions) and every index in `[0, count)` is assigned (no gaps). -/
def IndexBijectionSpec (l : List (ℕ × ℕ × ℕ)) (count : ℕ) : Prop :=
  l.Nodup ∧ l.length = count ∧
    (∀ (i j : ℕ) (c : ℕ × ℕ × ℕ), l[i]? = some c → l[j]? = some c → i = j) ∧
    (∀ j, j < count → ∃ c, c ∈ l ∧ l[j]? = some c)

theorem indexBijectionSpec_of_nodup {l : List (ℕ × ℕ × ℕ)} {count : ℕ}
    (hnd : l.Nodup) (hlen : l.length = count) : IndexBijectionSpec l count := by
  refine ⟨hnd, hlen, ?_, ?_⟩
  · intro i j c hi hj
    obtain ⟨hi', hci⟩ := List.getElem?_eq_some.mp hi
    obtain ⟨hj', hcj⟩ := List.getElem?_eq_some.mp hj
    have hval : l.get ⟨i, hi'⟩ = l.get ⟨j, hj'⟩ := by
      simp only [List.get_eq_getElem]
      exact hci.trans hcj.symm
    exact congrArg Fin.val (hnd.get_inj_iff.mp hval)
  · intro j hj
    have hj' : j < l.length := by omega
    exact ⟨l[j], List.getElem_mem hj', List.getElem?_eq_some.mpr ⟨hj', rfl⟩⟩

/-- Claim C4: for every lattice size (Lx, Ly, Lz) with Lx, Ly, Lz ≥ 1, the 3D
toric code's qubit coordinate-to-index map is a bijection from the enumerated
qubit coordinates onto [0, 3·Lx·Ly·Lz) with no collisions and no gaps, and
`n_k_d` reports n = 3·Lx·Ly·Lz and k = 3. -/
theorem toric_qubit_index_bijection (Lx Ly Lz : ℕ)
    (_hx : 1 ≤ Lx) (_hy : 1 ≤ Ly) (_hz : 1 ≤ Lz) :
    IndexBijectionSpec (toricQubitCoordinates Lx Ly Lz) (3 * (Lx * Ly * Lz)) ∧
      (toric_n_k_d Lx Ly Lz).1 = (toricQubitCoordinates Lx Ly Lz).length ∧
      (toric_n_k_d Lx Ly Lz).2.1 = 3 :=
  ⟨indexBijectionSpec_of_nodup (toricQubitCoordinates_nodup Lx Ly Lz)
      (toricQubitCoordinates_length Lx Ly Lz),
    (toricQubitCoordinates_length Lx Ly Lz).symm, rfl⟩

/-- Witness for C4 at Lx = Ly = Lz = 2: the hypothesis holds and the 2×2×2
toric code has n_k_d[0] = 24 qubits and k = 3. -/
theorem toric_qubit_index_bijection_witness :
    (1 ≤ 2) ∧
      (IndexBijectionSpec (toricQubitCoordinates 2 2 2) (3 * (2 * 2 * 2)) ∧
        (toric_n_k_d 2 2 2).1 = (toricQubitCoordinates 2 2 2).length ∧
        (toric_n_k_d 2 2 2).2.1 = 3) ∧
      (toric_n_k_d 2 2 2).1 = 24 :=
  ⟨by decide, toric_qubit_index_bijection 2 2 2 (by decide) (by decide) (by decide),
    by decide⟩

/-! ### The rhombic code: direct (`src/bn3d/rhombic/_rhombic_code.py`) and
indexed (`src/bn3d/models/rhombic/_rhombic_code.py`) implementations -/

theorem product_map_map {α β γ δ : Type} (f : α → β) (g : γ → δ)
    (l1 : List α) (l2 : List γ) :
    (l1.map f) ×ˢ (l2.map g) = (l1 ×ˢ l2).map (Prod.map f g) := by
  induction l1 with
  | nil => simp [List.nil_product]
  | cons a t ih =>
    simp only [List.map_cons, List.product_cons, ih, List.map_append, List.map_map]
    refine congrArg₂ _ ?_ rfl
    apply List.map_congr_left
    intro c _
    rfl

theorem tripleProduct_map (f g h : ℕ → ℕ) (l1 l2 l3 : List ℕ) :
    tripleProduct (l1.map f) (l2.map g) (l3.map h) =
      (tripleProduct l1 l2 l3).map (fun p => (f p.1, g p.2.1, h p.2.2)) := by
  unfold tripleProduct
  rw [product_map_map f g, product_map_map (Prod.map f g) h, List.map_map,
    List.map_map]
  apply List.map_congr_left
  rintro ⟨⟨a, b⟩, c⟩ _
  rfl

/-- Direct `RhombicCode.get_cube_X_stabilizers`: the unscaled cube-stabilizer
positions, `itertools.product(range(Lx), range(Ly), range(Lz))` filtered by
`(L_x + L_y + L_z) % 2 == 1`. -/
def rhombicCubePositionsDirect (Lx Ly Lz : ℕ) : List (ℕ × ℕ × ℕ) :=
  (tripleProduct (pyRange 0 Lx 1) (pyRange 0 Ly 1) (pyRange 0 Lz 1)).filter
    (fun p => decide ((p.1 + p.2.1 + p.2.2) % 2 = 1))

/-- Indexed `RhombicCode._create_face_indices`: cube positions in the doubled
coordinate system, `itertools.product` of the odd ranges `range(1, 2*L, 2)`
filtered by `(x + y + z) % 4 == 1`. -/
def rhombicCubePositionsIndexed (Lx Ly Lz : ℕ) : List (ℕ × ℕ × ℕ) :=
  (tripleProduct (pyRange 1 (2 * Lx) 2) (pyRange 1 (2 * Ly) 2)
      (pyRange 1 (2 * Lz) 2)).filter
    (fun p => decide ((p.1 + p.2.1 + p.2.2) % 4 = 1))

/-- The scaling map (a, b, c) ↦ (2a+1, 2b+1, 2c+1) from unscaled to doubled
cube coordinates. -/
def doubleOddMap (p : ℕ × ℕ × ℕ) : ℕ × ℕ × ℕ :=
  (2 * p.1 + 1, 2 * p.2.1 + 1, 2 * p.2.2 + 1)

/-- Claim C5: (a, b, c) ↦ (2a+1, 2b+1, 2c+1) is a bijection from the unscaled
cube-stabilizer positions of the direct RhombicCode (filter (a+b+c) % 2 == 1)
onto the doubled cube positions of the indexed RhombicCode (odd coordinates
with (x+y+z) % 4 == 1); in particular both enumerate the same number of cube
stabilizers. -/
theorem rhombic_cube_refinement (Lx Ly Lz : ℕ) :
    rhombicCubePositionsIndexed Lx Ly Lz =
        (rhombicCubePositionsDirect Lx Ly Lz).map doubleOddMap ∧
      Function.Injective doubleOddMap ∧
      (rhombicCubePositionsIndexed Lx Ly Lz).length =
        (rhombicCubePositionsDirect Lx Ly Lz).length := by
  have hinj : Function.Injective doubleOddMap := by
    rintro ⟨a, b, c⟩ ⟨d, e, f⟩ h
    simp only [doubleOddMap, Prod.mk.injEq] at h
    simp only [Prod.mk.injEq]
    omega
  have hmain : rhombicCubePositionsIndexed Lx Ly Lz =
      (rhombicCubePositionsDirect Lx Ly Lz).map doubleOddMap := by
    unfold rhombicCubePositionsIndexed rhombicCubePositionsDirect
    rw [pyRange_odd, pyRange_odd, pyRange_odd, pyRange_simple, pyRange_simple,
      pyRange_simple, tripleProduct_map, List.filter_map]
    have hfun : (fun p : ℕ × ℕ × ℕ => (2 * p.1 + 1, 2 * p.2.1 + 1, 2 * p.2.2 + 1)) =
        doubleOddMap := rfl
    rw [hfun]
    refine congrArg _ ?_
    apply List.filter_congr
    intro p _
    simp only [Function.comp, doubleOddMap, decide_eq_decide]
    omega
  exact ⟨hmain, hinj, by rw [hmain, List.length_map]⟩

/-- Direct `RhombicCode.__init__`: `L_y`/`L_z` default to `L_x` when omitted;
the stored shape is `(3, L_x, L_y, L_z)`. -/
def rhombicDirectShape (Lx : ℕ) (Ly Lz : Option ℕ) : ℕ × ℕ × ℕ × ℕ :=
  (3, Lx, Ly.getD Lx, Lz.getD Lx)

/-- Direct `RhombicCode.size`: the shape with the leading 3 dropped. -/
def rhombicDirectSize (Lx : ℕ) (Ly Lz : Option ℕ) : ℕ × ℕ × ℕ :=
  (rhombicDirectShape Lx Ly Lz).2

/-- Direct `RhombicCode.n_k_d`: `(np.product(shape), 3, min(size))`. -/
def rhombicDirect_n_k_d (Lx : ℕ) (Ly Lz : Option ℕ) : ℕ × ℕ × ℕ :=
  ((rhombicDirectShape Lx Ly Lz).1 * ((rhombicDirectShape Lx Ly Lz).2.1 *
      ((rhombicDirectShape Lx Ly Lz).2.2.1 * (rhombicDirectShape Lx Ly Lz).2.2.2)),
    3,
    min (rhombicDirectSize Lx Ly Lz).1
      (min (rhombicDirectSize Lx Ly Lz).2.1 (rhombicDirectSize Lx Ly Lz).2.2))

/-- Claim C10: constructing the direct RhombicCode with only L_x defaults the
omitted dimensions to L_x (cubic lattice, n = 3·L_x³); with all three supplied
the size is exactly (L_x, L_y, L_z) and n = 3·L_x·L_y·L_z. -/
theorem rhombic_init_defaults (Lx Ly Lz : ℕ) :
    rhombicDirectSize Lx none none = (Lx, Lx, Lx) ∧
      (rhombicDirect_n_k_d Lx none none).1 = 3 * Lx ^ 3 ∧
      rhombicDirectSize Lx (some Ly) (some Lz) = (Lx, Ly, Lz) ∧
      (rhombicDirect_n_k_d Lx (some Ly) (some Lz)).1 = 3 * (Lx * Ly * Lz) := by
  refine ⟨rfl, ?_, rfl, ?_⟩
  · show 3 * (Lx * (Lx * Lx)) = 3 * Lx ^ 3
    ring
  · show 3 * (Lx * (Ly * Lz)) = 3 * (Lx * Ly * Lz)
    ring

/-! ### Pauli error models (`src/panqec/error_models/_pauli_error_model.py`,
`src/panqec/error_models/_deformed_xzzx_error_model.py`)

Rates and probabilities are modelled exactly as rationals.  Python
exceptions (`ValueError`, `NotImplementedError`) are `Except.error`. -/

/-- The per-qubit probability distribution over I, X, Y, Z: four arrays of
length n. -/
structure PDist where
  pI : List ℚ
  pX : List ℚ
  pY : List ℚ
  pZ : List ℚ
  deriving DecidableEq

/-- `np.isclose(a, b)` with its default tolerances `rtol=1e-5`, `atol=1e-8`:
`|a - b| <= atol + rtol * |b|`. -/
def npIsClose (a b : ℚ) : Bool :=
  decide (|a - b| ≤ 1 / 100000000 + 1 / 100000 * |b|)

/-- `PauliErrorModel.__init__`: raise `ValueError` unless
`np.isclose(r_x + r_y + r_z, 1)`; otherwise store the direction unchanged. -/
def pauliErrorModelInit (rx ry rz : ℚ) : Except String (ℚ × ℚ × ℚ) :=
  if npIsClose (rx + ry + rz) 1 then Except.ok (rx, ry, rz)
  else Except.error "Noise direction does not sum to 1.0"

/-- `PauliErrorModel.probability_distribution`: `p_I = (1-p)·ones(n)`,
`p_u = (r_u · p)·ones(n)` for u in X, Y, Z. -/
def probabilityDistribution (rx ry rz : ℚ) (n : ℕ) (p : ℚ) : PDist :=
  { pI := List.replicate n (1 - p)
    pX := List.replicate n (rx * p)
    pY := List.replicate n (ry * p)
    pZ := List.replicate n (rz * p) }

/-- The code-model interface the error models consume: an identity string,
the enumerated qubit coordinates (`code.n = len(qubit_coordinates)` for the
code families in scope), the axis classifier, and the per-class axis label
constants `X_AXIS`/`Y_AXIS`/`Z_AXIS`. -/
structure StabCode where
  id : String
  qubit_coordinates : List (ℕ × ℕ × ℕ)
  axisOf : ℕ × ℕ × ℕ → Except String ℕ
  xAxis : ℕ
  yAxis : ℕ
  zAxis : ℕ

/-- The dictionary `deformed_axis` of
`DeformedXZZXErrorModel._get_deformation_indices`. -/
def deformedAxisTable (code : StabCode) : List (String × ℕ) :=
  [("Toric3DCode", code.zAxis),
   ("Planar3DCode", code.zAxis),
   ("XCubeCode", code.zAxis),
   ("RotatedToric3DCode", code.xAxis),
   ("RotatedPlanar3DCode", code.zAxis),
   ("RhombicCode", code.zAxis),
   ("Toric2DCode", code.xAxis),
   ("Planar2DCode", code.xAxis),
   ("RotatedPlanar2DCode", code.xAxis)]

/-- The loop `for index, location in enumerate(code.qubit_coordinates):
is_deformed[index] = (code.axis(location) == deformed_axis[code.id])`;
the first failing `code.axis` call propagates its exception. -/
def deformationFlags (ax : ℕ) (axisFn : ℕ × ℕ × ℕ → Except String ℕ) :
    List (ℕ × ℕ × ℕ) → Except String (List Bool)
  | [] => Except.ok []
  | c :: rest =>
    match axisFn c with
    | Except.error e => Except.error e
    | Except.ok a =>
      match deformationFlags ax axisFn rest with
      | Except.error e => Except.error e
      | Except.ok ds => Except.ok ((a == ax) :: ds)

/-- `DeformedXZZXErrorModel._get_deformation_indices`: raise
`NotImplementedError` when `code.id` has no registered deformed axis,
otherwise flag each qubit whose axis equals the deformed axis. -/
def getDeformationIndices (code : StabCode) : Except String (List Bool) :=
  match (deformedAxisTable code).lookup code.id with
  | none => Except.error "Code has no XZZX deformation implemented"
  | some ax => deformationFlags ax code.axisOf code.qubit_coordinates

/-- `DeformedXZZXErrorModel.probability_distribution`: per qubit,
`p_x = p·(r_z if deformed else r_x)`, `p_z = p·(r_x if deformed else r_z)`,
`p_y = p·r_y`, `p_i = 1 - p`. -/
def deformedProbabilityDistribution (code : StabCode) (rx ry rz p : ℚ) :
    Except String PDist :=
  match getDeformationIndices code with
  | Except.error e => Except.error e
  | Except.ok isDeformed =>
    Except.ok
      { pI := isDeformed.map (fun _ => 1 - p)
        pX := isDeformed.map (fun d => p * (if d then rz else rx))
        pY := isDeformed.map (fun _ => p * ry)
        pZ := isDeformed.map (fun d => p * (if d then rx else rz)) }

theorem deformationFlags_ok {ax : ℕ} {axisFn : ℕ × ℕ × ℕ → Except String ℕ} :
    ∀ {cs : List (ℕ × ℕ × ℕ)} {ds : List Bool},
      deformationFlags ax axisFn cs = Except.ok ds →
      ds.length = cs.length ∧
        ∀ (i : ℕ) (c : ℕ × ℕ × ℕ), cs[i]? = some c →
          ∃ a, axisFn c = Except.ok a ∧ ds[i]? = some (a == ax) := by
  intro cs
  induction cs with
  | nil =>
    intro ds h
    simp only [deformationFlags] at h
    cases h
    exact ⟨rfl, fun i c hc => by simp at hc⟩
  | cons c rest ih =>
    intro ds h
    simp only [deformationFlags] at h
    cases ha : axisFn c with
    | error e => rw [ha] at h; cases h
    | ok a =>
      rw [ha] at h
      cases hr : deformationFlags ax axisFn rest with
      | error e => rw [hr] at h; cases h
      | ok ds0 =>
        rw [hr] at h
        cases h
        obtain ⟨hlen, hget⟩ := ih hr
        refine ⟨by simp [hlen], ?_⟩
        intro i c0 hc0
        cases i with
        | zero =>
          simp only [List.getElem?_cons_zero, Option.some.injEq] at hc0
          subst hc0
          exact ⟨a, ha, by simp⟩
        | succ i =>
          simp only [List.getElem?_cons_succ] at hc0 ⊢
          exact hget i c0 hc0

instance exceptDecidableEq {ε α : Type} [DecidableEq ε] [DecidableEq α] :
    DecidableEq (Except ε α) := fun x y =>
  match x, y with
  | Except.error a, Except.error b =>
    if h : a = b then isTrue (by rw [h])
    else isFalse (by intro hc; cases hc; exact h rfl)
  | Except.error _, Except.ok _ => isFalse (by intro hc; cases hc)
  | Except.ok _, Except.error _ => isFalse (by intro hc; cases hc)
  | Except.ok a, Except.ok b =>
    if h : a = b then isTrue (by rw [h])
    else isFalse (by intro hc; cases hc; exact h rfl)

/-- Claim C1: for the XZZX-deformed error model, on a code with a registered
deformed axis, every qubit whose axis classification equals that deformed axis
gets p_X = r_z·p and p_Z = r_x·p with p_Y = r_y·p unchanged; every other qubit
keeps the undeformed base distribution p_X = r_x·p, p_Z = r_z·p. -/
theorem deformed_xzzx_swap (code : StabCode) (rx ry rz p : ℚ) (ax : ℕ)
    (hreg : (deformedAxisTable code).lookup code.id = some ax)
    (dist : PDist)
    (hok : deformedProbabilityDistribution code rx ry rz p = Except.ok dist) :
    ∀ (i : ℕ) (c : ℕ × ℕ × ℕ), code.qubit_coordinates[i]? = some c →
      ((code.axisOf c = Except.ok ax →
          dist.pX[i]? = some (rz * p) ∧ dist.pZ[i]? = some (rx * p) ∧
            dist.pY[i]? = some (ry * p) ∧ dist.pI[i]? = some (1 - p)) ∧
        (code.axisOf c ≠ Except.ok ax →
          dist.pX[i]? = some (rx * p) ∧ dist.pZ[i]? = some (rz * p) ∧
            dist.pY[i]? = some (ry * p) ∧ dist.pI[i]? = some (1 - p))) := by
  unfold deformedProbabilityDistribution getDeformationIndices at hok
  rw [hreg] at hok
  dsimp only at hok
  cases hflags : deformationFlags ax code.axisOf code.qubit_coordinates with
  | error e => rw [hflags] at hok; cases hok
  | ok ds =>
    rw [hflags] at hok
    cases hok
    obtain ⟨hlen, hget⟩ := deformationFlags_ok hflags
    intro i c hc
    obtain ⟨a, ha, hd⟩ := hget i c hc
    constructor
    · intro hax
      have haax : a = ax := by
        rw [ha] at hax
        injection hax
      subst haax
      simp only [List.getElem?_map, hd, beq_self_eq_true, Option.map_some]
      refine ⟨?_, ?_, ?_, ?_⟩ <;> simp [mul_comm]
    · intro hax
      have haax : (a == ax) = false := by
        refine beq_eq_false_iff_ne.mpr ?_
        intro h
        exact hax (h ▸ ha)
      simp only [List.getElem?_map, hd, haax, Option.map_some]
      refine ⟨?_, ?_, ?_, ?_⟩ <;> simp [mul_comm]

/-- A concrete registered code for witnesses: the 1×1×1 3D toric code. -/
def toricCodeL1 : StabCode :=
  { id := "Toric3DCode"
    qubit_coordinates := toricQubitCoordinates 1 1 1
    axisOf := toricAxis
    xAxis := X_AXIS
    yAxis := Y_AXIS
    zAxis := Z_AXIS }

/-- A concrete code identity absent from the deformed-axis registry. -/
def unknownCode : StabCode :=
  { id := "FooCode"
    qubit_coordinates := []
    axisOf := toricAxis
    xAxis := X_AXIS
    yAxis := Y_AXIS
    zAxis := Z_AXIS }

/-- The deformed distribution of `toricCodeL1` at direction (1/2, 1/4, 1/4)
and probability 1/2: qubits (1,0,0), (0,1,0) are undeformed, (0,0,1) (the
z-axis qubit) is deformed. -/
def toricCodeL1Dist : PDist :=
  { pI := [1/2, 1/2, 1/2]
    pX := [1/4, 1/4, 1/8]
    pY := [1/8, 1/8, 1/8]
    pZ := [1/8, 1/8, 1/4] }

/-- Witness for C1 on `toricCodeL1`: the deformed qubit at index 2 has
p_X = r_z·p and p_Z = r_x·p, while the undeformed qubit at index 0 keeps
p_X = r_x·p and p_Z = r_z·p. -/
theorem deformed_xzzx_swap_witness :
    (deformedProbabilityDistribution toricCodeL1 (1/2) (1/4) (1/4) (1/2)).map
        (fun d => (d.pX[2]?, d.pZ[2]?, d.pX[0]?, d.pZ[0]?)) =
      Except.ok (some ((1:ℚ)/4 * (1/2)), some ((1:ℚ)/2 * (1/2)),
        some ((1:ℚ)/2 * (1/2)), some ((1:ℚ)/4 * (1/2))) := by
  have hcoords : toricCodeL1.qubit_coordinates = [(1, 0, 0), (0, 1, 0), (0, 0, 1)] := by
    decide
  have hflags : deformationFlags 2 toricAxis [(1, 0, 0), (0, 1, 0), (0, 0, 1)] =
      Except.ok [false, false, true] := by decide
  have hok : deformedProbabilityDistribution toricCodeL1 (1/2) (1/4) (1/4) (1/2) =
      Except.ok toricCodeL1Dist := by
    unfold deformedProbabilityDistribution getDeformationIndices
    rw [show (deformedAxisTable toricCodeL1).lookup toricCodeL1.id = some 2 from by decide]
    dsimp only
    rw [show toricCodeL1.axisOf = toricAxis from rfl, hcoords, hflags]
    dsimp only
    simp only [List.map_cons, List.map_nil, toricCodeL1Dist]
    norm_num
  have h2 := (deformed_xzzx_swap toricCodeL1 (1/2) (1/4) (1/4) (1/2) 2 (by decide)
    toricCodeL1Dist hok 2 (0, 0, 1) (by rw [hcoords]; rfl)).1 (by decide)
  have h0 := (deformed_xzzx_swap toricCodeL1 (1/2) (1/4) (1/4) (1/2) 2 (by decide)
    toricCodeL1Dist hok 0 (1, 0, 0) (by rw [hcoords]; rfl)).2 (by decide)
  rw [hok]
  simp only [Except.map]
  rw [h2.1, h2.2.1, h0.1, h0.2.1]

/-- Claim C2: the base distribution gives every qubit p_I = 1-p, p_X = r_x·p,
p_Y = r_y·p, p_Z = r_z·p, so each column sums to 1 when r_x+r_y+r_z = 1; any
deformed distribution the XZZX model returns also sums to 1 per qubit. -/
theorem pauli_probability_normalization (rx ry rz p : ℚ) (n : ℕ)
    (hsum : rx + ry + rz = 1) (_hp0 : 0 ≤ p) (_hp1 : p ≤ 1) :
    (∀ i : ℕ, i < n →
      (probabilityDistribution rx ry rz n p).pI[i]? = some (1 - p) ∧
        (probabilityDistribution rx ry rz n p).pX[i]? = some (rx * p) ∧
        (probabilityDistribution rx ry rz n p).pY[i]? = some (ry * p) ∧
        (probabilityDistribution rx ry rz n p).pZ[i]? = some (rz * p) ∧
        (1 - p) + (rx * p + (ry * p + rz * p)) = 1) ∧
      (∀ (code : StabCode) (dist : PDist),
        deformedProbabilityDistribution code rx ry rz p = Except.ok dist →
        ∀ (i : ℕ) (a b c d : ℚ), dist.pI[i]? = some a → dist.pX[i]? = some b →
          dist.pY[i]? = some c → dist.pZ[i]? = some d → a + b + c + d = 1) := by
  constructor
  · intro i hi
    refine ⟨?_, ?_, ?_, ?_, by linear_combination p * hsum⟩ <;>
      simp [probabilityDistribution, List.getElem?_replicate, hi]
  · intro code dist hok i a b c d hA hB hC hD
    unfold deformedProbabilityDistribution at hok
    cases hfl : getDeformationIndices code with
    | error e => rw [hfl] at hok; cases hok
    | ok ds =>
      rw [hfl] at hok
      cases hok
      simp only [List.getElem?_map] at hA hB hC hD
      cases hds : ds[i]? with
      | none => rw [hds] at hA; cases hA
      | some dv =>
        rw [hds] at hA hB hC hD
        simp only [Option.map_some', Option.map_some, Option.some.injEq]
          at hA hB hC hD
        subst hA; subst hB; subst hC; subst hD
        cases dv
        · rw [if_neg (by simp), if_neg (by simp)]
          linear_combination p * hsum
        · rw [if_pos rfl, if_pos rfl]
          linear_combination p * hsum

/-- Witness for C2 at (r_x, r_y, r_z) = (1/2, 1/4, 1/4), p = 1/2, n = 3. -/
theorem pauli_probability_normalization_witness :
    (probabilityDistribution (1/2) (1/4) (1/4) 3 (1/2)).pX[0]? =
        some ((1:ℚ)/2 * (1/2)) ∧
      ((1:ℚ) - 1/2) + ((1:ℚ)/2 * (1/2) + ((1:ℚ)/4 * (1/2) + (1:ℚ)/4 * (1/2))) = 1 := by
  have h := (pauli_probability_normalization (1/2) (1/4) (1/4) (1/2) 3
    (by norm_num) (by norm_num) (by norm_num)).1 0 (by norm_num)
  exact ⟨h.2.1, h.2.2.2.2⟩

/-- Claim C3 counterexample: the direction (1/2, 1/2, 1e-6) has
|r_x + r_y + r_z − 1| = 1e-6 > 1e-9, yet construction succeeds (and stores
the triple unchanged), because the code uses `np.isclose` with its default
tolerances (atol 1e-8, rtol 1e-5), not tolerance 1e-9. -/
theorem pauli_init_tolerance_cex :
    (1 / 1000000000 : ℚ) < |((1:ℚ)/2 + 1/2 + 1/1000000) - 1| ∧
      pauliErrorModelInit (1/2) (1/2) (1/1000000) =
        Except.ok (1/2, 1/2, 1/1000000) := by
  constructor
  · rw [show ((1:ℚ)/2 + 1/2 + 1/1000000) - 1 = 1/1000000 by ring]
    rw [abs_of_pos (by norm_num)]
    norm_num
  · unfold pauliErrorModelInit npIsClose
    rw [if_pos]
    rw [decide_eq_true_iff]
    rw [show ((1:ℚ)/2 + 1/2 + 1/1000000) - 1 = 1/1000000 by ring]
    rw [abs_of_pos (by norm_num : (0:ℚ) < 1/1000000), abs_one]
    norm_num

/-- Claim C3 (amended): construction fails exactly when (r_x, r_y, r_z) is
not within the `np.isclose` default tolerance of summing to 1, i.e. when
|r_x + r_y + r_z − 1| > 1e-8 + 1e-5; on success the stored direction is
exactly the supplied triple. -/
theorem pauli_init_validation (rx ry rz : ℚ) :
    ((pauliErrorModelInit rx ry rz).isOk = true ↔
        |rx + ry + rz - 1| ≤ 1 / 100000000 + 1 / 100000) ∧
      ∀ d, pauliErrorModelInit rx ry rz = Except.ok d → d = (rx, ry, rz) := by
  have htol : npIsClose (rx + ry + rz) 1 = true ↔
      |rx + ry + rz - 1| ≤ 1 / 100000000 + 1 / 100000 := by
    unfold npIsClose
    rw [decide_eq_true_iff, abs_one, mul_one]
  constructor
  · constructor
    · intro h
      rw [← htol]
      by_contra hb
      have hb' : npIsClose (rx + ry + rz) 1 = false := eq_false_of_ne_true hb
      unfold pauliErrorModelInit at h
      rw [hb'] at h
      simp [Except.isOk, Except.toBool] at h
    · intro h
      unfold pauliErrorModelInit
      rw [if_pos (htol.mpr h)]
      rfl
  · intro d hd
    unfold pauliErrorModelInit at hd
    by_cases hb : npIsClose (rx + ry + rz) 1 = true
    · rw [if_pos hb] at hd
      injection hd with h
      exact h.symm
    · rw [if_neg hb] at hd
      cases hd

/-- Witness for C3 (amended) at (1/4, 1/4, 1/2): the sum is exactly 1, so
construction succeeds. -/
theorem pauli_init_validation_witness :
    (pauliErrorModelInit (1/4) (1/4) (1/2)).isOk = true :=
  (pauli_init_validation (1/4) (1/4) (1/2)).1.mpr (by norm_num)

theorem deformationFlags_total (ax : ℕ) (axisFn : ℕ × ℕ × ℕ → Except String ℕ) :
    ∀ cs : List (ℕ × ℕ × ℕ), (∀ c ∈ cs, (axisFn c).isOk = true) →
      ∃ ds, deformationFlags ax axisFn cs = Except.ok ds := by
  intro cs
  induction cs with
  | nil => exact fun _ => ⟨[], rfl⟩
  | cons c rest ih =>
    intro h
    have hc := h c (by simp)
    cases ha : axisFn c with
    | error e => rw [ha] at hc; simp [Except.isOk, Except.toBool] at hc
    | ok a =>
      obtain ⟨ds, hds⟩ := ih (fun c0 hc0 => h c0 (by simp [hc0]))
      exact ⟨(a == ax) :: ds, by simp only [deformationFlags, ha, hds]⟩

/-- Claim C9: for every code whose identity is not in the deformed-axis
registry, the deformation lookup (and hence the deformed
probability_distribution) fails with a not-implemented error rather than
returning a default; for every registered code (whose qubit coordinates all
classify) it succeeds. -/
theorem deformation_registry (code : StabCode) (rx ry rz p : ℚ) :
    ((deformedAxisTable code).lookup code.id = none →
        getDeformationIndices code =
            Except.error "Code has no XZZX deformation implemented" ∧
          deformedProbabilityDistribution code rx ry rz p =
            Except.error "Code has no XZZX deformation implemented") ∧
      ∀ ax, (deformedAxisTable code).lookup code.id = some ax →
        (∀ c ∈ code.qubit_coordinates, (code.axisOf c).isOk = true) →
        (∃ ds, getDeformationIndices code = Except.ok ds) ∧
          ∃ d, deformedProbabilityDistribution code rx ry rz p = Except.ok d := by
  constructor
  · intro hnone
    have h1 : getDeformationIndices code =
        Except.error "Code has no XZZX deformation implemented" := by
      unfold getDeformationIndices
      rw [hnone]
    refine ⟨h1, ?_⟩
    unfold deformedProbabilityDistribution
    rw [h1]
  · intro ax hax hall
    obtain ⟨ds, hds⟩ := deformationFlags_total ax code.axisOf
      code.qubit_coordinates hall
    have h1 : getDeformationIndices code = Except.ok ds := by
      unfold getDeformationIndices
      rw [hax]
      exact hds
    refine ⟨⟨ds, h1⟩,
      ⟨{ pI := ds.map (fun _ => 1 - p)
         pX := ds.map (fun d => p * (if d then rz else rx))
         pY := ds.map (fun _ => p * ry)
         pZ := ds.map (fun d => p * (if d then rx else rz)) }, ?_⟩⟩
    unfold deformedProbabilityDistribution
    rw [h1]

/-- Witness for C9: the unregistered `unknownCode` fails with the
not-implemented error; the registered `toricCodeL1` succeeds. -/
theorem deformation_registry_witness :
    getDeformationIndices unknownCode =
        Except.error "Code has no XZZX deformation implemented" ∧
      ∃ ds, getDeformationIndices toricCodeL1 = Except.ok ds :=
  ⟨((deformation_registry unknownCode 1 0 0 0).1 (by decide)).1,
    ((deformation_registry toricCodeL1 1 0 0 0).2 2 (by decide) (by decide)).1⟩

/-! ### Error generation (`PauliErrorModel.generate`)

The numpy random generator is modelled as a stream of draws: one uniform
rational per qubit, consumed in qubit order.  `rng.choice(choices, p)` picks
the first choice whose cumulative probability exceeds the draw. -/

/-- `bsparse.zero_row(2*n)`: the all-zero error vector of length 2n. -/
def zeroRow (n : ℕ) : List ℕ := List.replicate (2 * n) 0

/-- The single-qubit Pauli rows built in `generate`: `pauli_x` sets bit i,
`pauli_z` sets bit n+i, `pauli_y` sets both, `pauli_i` sets none.  `k` is the
choice index in the order `[pauli_i, pauli_x, pauli_y, pauli_z]`. -/
def pauliRow (n i k : ℕ) : List ℕ :=
  if k = 1 then (List.range (2 * n)).map (fun j => if j = i then 1 else 0)
  else if k = 2 then
    (List.range (2 * n)).map (fun j => if j = i ∨ j = n + i then 1 else 0)
  else if k = 3 then (List.range (2 * n)).map (fun j => if j = n + i then 1 else 0)
  else zeroRow n

/-- Model of `rng.choice(4 items, p=[p_i, p_x, p_y, p_z])` given a uniform
draw `u`: cumulative-threshold selection. -/
def choosePauli (pi px py u : ℚ) : ℕ :=
  if u < pi then 0
  else if u < pi + px then 1
  else if u < pi + px + py then 2
  else 3

/-- `PauliErrorModel.generate`: per qubit, draw one of I, X, Y, Z from its
probability distribution and accumulate the corresponding row into the error
vector by elementwise addition (`error += ...`). -/
def generateError (n : ℕ) (dist : PDist) (draws : ℕ → ℚ) : List ℕ :=
  (List.range n).foldl
    (fun err i =>
      List.zipWith (· + ·) err
        (pauliRow n i
          (choosePauli (dist.pI.getD i 0) (dist.pX.getD i 0) (dist.pY.getD i 0)
            (draws i))))
    (zeroRow n)

/-- `generate` of the base Pauli error model: generation from the base
probability distribution. -/
def pauliGenerate (rx ry rz : ℚ) (n : ℕ) (p : ℚ) (draws : ℕ → ℚ) : List ℕ :=
  generateError n (probabilityDistribution rx ry rz n p) draws

/-! ### Resampling analysis (`src/bn3d/statmech/analysis.py`)

Real-valued observables.  NaN results of numpy/pandas reductions are
modelled as `Option` values: `pandasStd` (pandas `Series.std`, `ddof=1`)
is `none` on fewer than two samples; `npStdOpt` (numpy `ndarray.std`,
`ddof=0`) is `none` only on an empty array. -/

/-- `numpy`/`pandas` `.mean()` of a list of reals (nonempty in all uses). -/
noncomputable def listMean (l : List ℝ) : ℝ := l.sum / l.length

/-- pandas `Series.std()` (`ddof=1`): NaN (`none`) for fewer than 2 samples. -/
noncomputable def pandasStd (l : List ℝ) : Option ℝ :=
  if l.length ≤ 1 then none
  else some (Real.sqrt ((l.map fun x => (x - listMean l) ^ 2).sum / (l.length - 1)))

/-- numpy `ndarray.std()` (`ddof=0`): NaN (`none`) only for an empty array. -/
noncomputable def npStdOpt (l : List ℝ) : Option ℝ :=
  if l.isEmpty then none
  else some (Real.sqrt (listMean (l.map fun x => (x - listMean l) ^ 2)))

/-- One group of `estimate_observables`: mean, std (`ddof=1`) and count of
the observable values across the disorder realizations sharing the group's
independent variables. -/
noncomputable def observableEstimate (vals : List ℝ) : ℝ × Option ℝ × ℕ :=
  (listMean vals, pandasStd vals, vals.length)

/-- One row of the `estimates` table as consumed by
`estimate_correlation_length`: the lattice sizes and the two susceptibility
estimates. -/
structure EstRow where
  L_x : ℝ
  L_y : ℝ
  S0 : ℝ
  Skmin : ℝ

/-- `k_min = 2*np.pi/estimates[['L_x', 'L_y']].max(axis=1)` per row. -/
noncomputable def rowKMin (r : EstRow) : ℝ := 2 * Real.pi / max r.L_x r.L_y

/-- The `CorrelationLength_estimate` column:
`1/(2*np.sin(k_min/2))*np.sqrt(np.abs(S0/Skmin - 1))` per row. -/
noncomputable def correlationLengthEstimates (rows : List EstRow) : List ℝ :=
  rows.map fun r =>
    1 / (2 * Real.sin (rowKMin r / 2)) * Real.sqrt |r.S0 / r.Skmin - 1|

/-- Modelled from the spec: `CorrelationLength = 1/(2 sin(k_min/2)) *
sqrt(|S0/Skmin - 1|)`, the stated formula for the correlation-length
estimate at a given wavevector `k_min` and susceptibilities S0, Skmin. -/
noncomputable def specCorrelationLength (kmin s0 skmin : ℝ) : ℝ :=
  1 / (2 * Real.sin (kmin / 2)) * Real.sqrt |s0 / skmin - 1|

/-- One row of `filtered_results` (indexed by hash): the per-run
`Susceptibility0` and `Susceptibilitykmin` observables. -/
structure ResultRow where
  hash : ℕ
  s0 : ℝ
  skmin : ℝ

/-- `filtered_results.loc[resampled_hashes]`: for each hash in the sample
(with multiplicity, in order) all rows carrying that hash. -/
def locByHashes (rows : List ResultRow) (sample : List ℕ) : List ResultRow :=
  sample.flatMap fun h => rows.filter fun r => r.hash == h

/-- One bootstrap estimate: the correlation-length formula applied to the
disorder means of the susceptibilities over the resampled hash subset. -/
noncomputable def resampledCorrelationLength (kmin : ℝ) (rows : List ResultRow)
    (sample : List ℕ) : ℝ :=
  1 / (2 * Real.sin (kmin / 2)) *
    Real.sqrt |listMean ((locByHashes rows sample).map ResultRow.s0) /
      listMean ((locByHashes rows sample).map ResultRow.skmin) - 1|

/-- Model of `bs_rng.choice(hashes, size=hashes.size)`: `hashes.size` picks
by uniform indices taken from the generator's stream. -/
def npChoice (hashes : List ℕ) (stream : ℕ → ℕ) (base : ℕ) : List ℕ :=
  (List.range hashes.length).map fun t =>
    hashes.getD (stream (base + t) % hashes.length) 0

/-- The bootstrap loop of `estimate_correlation_length` for one estimates
row: `n_resamp` resampled correlation lengths, reported as their standard
deviation (numpy `std`, `ddof=0`). -/
noncomputable def bootstrapUncertainty (kmin : ℝ) (rows : List ResultRow) (hashes : List ℕ)
    (stream : ℕ → ℕ) (nResamp : ℕ) : Option ℝ :=
  npStdOpt ((List.range nResamp).map fun j =>
    resampledCorrelationLength kmin rows (npChoice hashes stream (j * hashes.length)))

/-- Claim C6: the point estimate is `1/(2 sin(k_min/2))·sqrt(|S0/Skmin − 1|)`
with `k_min = 2π/max(Lx, Ly)` per row, and each bootstrap draw recomputes
exactly the same formula from the disorder-mean susceptibilities of the
resampled hash subset. -/
theorem correlation_length_formula (rows : List EstRow) (kmin : ℝ)
    (res : List ResultRow) (sample : List ℕ) :
    correlationLengthEstimates rows =
        rows.map (fun r =>
          specCorrelationLength (2 * Real.pi / max r.L_x r.L_y) r.S0 r.Skmin) ∧
      resampledCorrelationLength kmin res sample =
        specCorrelationLength kmin
          (listMean ((locByHashes res sample).map ResultRow.s0))
          (listMean ((locByHashes res sample).map ResultRow.skmin)) :=
  ⟨rfl, rfl⟩

/-- Claim C7: two-run determinism.  `generate` with two pointwise-identical
draw streams (generators seeded identically) produces identical error
vectors, and the bootstrap of `estimate_correlation_length` with
pointwise-identical generator streams (the fixed default seed) produces
identical uncertainty output on identical input data. -/
theorem two_run_determinism (rx ry rz p : ℚ) (n : ℕ) (draws1 draws2 : ℕ → ℚ)
    (kmin : ℝ) (rows : List ResultRow) (hashes : List ℕ)
    (stream1 stream2 : ℕ → ℕ) (nResamp : ℕ)
    (hdraws : ∀ i, draws1 i = draws2 i) (hstream : ∀ i, stream1 i = stream2 i) :
    pauliGenerate rx ry rz n p draws1 = pauliGenerate rx ry rz n p draws2 ∧
      bootstrapUncertainty kmin rows hashes stream1 nResamp =
        bootstrapUncertainty kmin rows hashes stream2 nResamp := by
  have h1 : draws1 = draws2 := funext hdraws
  have h2 : stream1 = stream2 := funext hstream
  rw [h1, h2]
  exact ⟨rfl, rfl⟩

/-- Witness for C7 with concrete identically-seeded streams. -/
theorem two_run_determinism_witness :
    pauliGenerate 1 0 0 2 1 (fun i => (i : ℚ)) =
        pauliGenerate 1 0 0 2 1 (fun i => (i : ℚ)) ∧
      bootstrapUncertainty 1 [] [] (fun i => i) 100 =
        bootstrapUncertainty 1 [] [] (fun i => i) 100 :=
  two_run_determinism 1 0 0 1 2 (fun i => (i : ℚ)) (fun i => (i : ℚ)) 1 [] []
    (fun i => i) (fun i => i) 100 (fun _ => rfl) (fun _ => rfl)

theorem listMean_replicate (m : ℕ) (c : ℝ) (hm : m ≠ 0) :
    listMean (List.replicate m c) = c := by
  unfold listMean
  rw [List.sum_replicate, List.length_replicate, nsmul_eq_mul]
  field_simp

/-- With a single disorder hash, every bootstrap resample is that hash, so
the `n_resamp` resampled correlation lengths coincide and their standard
deviation is exactly 0 (not NaN). -/
theorem bootstrap_singleton (kmin : ℝ) (rows : List ResultRow) (h : ℕ)
    (stream : ℕ → ℕ) :
    bootstrapUncertainty kmin rows [h] stream 100 = some 0 := by
  have hchoice : ∀ base, npChoice [h] stream base = [h] := by
    intro base
    unfold npChoice
    simp [Nat.mod_one]
  unfold bootstrapUncertainty
  have hfun : (fun j : ℕ => resampledCorrelationLength kmin rows
      (npChoice [h] stream (j * ([h] : List ℕ).length))) =
      fun _ : ℕ => resampledCorrelationLength kmin rows [h] := by
    funext j
    rw [hchoice]
  rw [hfun]
  set c := resampledCorrelationLength kmin rows [h] with hc
  have hrep : (List.range 100).map (fun _ : ℕ => c) = List.replicate 100 c := by
    rw [List.map_const', List.length_range]
  rw [hrep]
  unfold npStdOpt
  rw [if_neg (by simp)]
  rw [List.map_replicate, listMean_replicate 100 c (by norm_num)]
  rw [show (c - c) ^ 2 = (0:ℝ) by ring]
  rw [listMean_replicate 100 (0:ℝ) (by norm_num), Real.sqrt_zero]

/-- Claim C8 counterexample: for a parameter group with exactly one disorder
realization (hash 0, susceptibilities 2 and 1), the bootstrap uncertainty is
the number 0, not NaN/missing. -/
theorem single_disorder_group_cex :
    bootstrapUncertainty 1 [⟨0, 2, 1⟩] [0] (fun i => i) 100 = some 0 ∧
      some (0:ℝ) ≠ (none : Option ℝ) :=
  ⟨bootstrap_singleton 1 [⟨0, 2, 1⟩] 0 (fun i => i), by simp⟩

/-- Claim C8 (amended): a parameter group with exactly one disorder
realization makes `estimate_observables` report the observable uncertainty
as NaN (missing) with count 1, without raising; `estimate_correlation_length`
completes on such a group, but its bootstrap uncertainty is the number 0
(all resamples coincide), not NaN/missing.  (Groups with zero realizations do
not occur in the estimates table, which is built by grouping joined rows.) -/
theorem single_disorder_group (v kmin : ℝ) (rows : List ResultRow) (h : ℕ)
    (stream : ℕ → ℕ) :
    observableEstimate [v] = (v, none, 1) ∧
      bootstrapUncertainty kmin rows [h] stream 100 = some 0 := by
  constructor
  · unfold observableEstimate pandasStd listMean
    simp
  · exact bootstrap_singleton kmin rows h stream

end PanQec
